import Mathlib

/-!
Shallow embedding of the reconciliation core of `gfdashsync` (`main.go`):
the `File` / `History` data model, the `Gitlab` syncer state and its
methods `Add`, `add`, `deleteOrphans`, `updateHistory`, `Commit` and
`parseHistory`, together with the JSON (de)serialization of the history
store.  Go's `map[string]*File` is modelled as an association list whose
list order stands for one possible iteration order of the map; lookup,
insert, in-place mutation and delete operate on the first matching key,
mirroring a map with unique keys.
-/

/-- The GitLab commit action kinds (`gitlab.FileCreate` / `FileUpdate` /
`FileMove` / `FileDelete`). -/
inductive FileActionValue
  | create
  | update
  | move
  | delete
deriving DecidableEq, Repr

/-- Content payload of a commit action: either raw dashboard blob bytes
(`in.content`) or the JSON marshalling of the history store
(`json.Marshal(g.history)`), kept structured here. -/
inductive FileContent
  | blob (data : String)
  | historyDoc (doc : List (String × String × String × String))
deriving DecidableEq, Repr

/-- `gitlab.CommitActionOptions`: the fields the program sets.  `Content`
and `PreviousPath` are pointer fields in Go, hence `Option` here; the
program leaves `PreviousPath` unset unless a non-empty previous path is
given. -/
structure CommitActionOptions where
  Action : FileActionValue
  FilePath : String
  Content : Option FileContent
  PreviousPath : Option String
deriving DecidableEq, Repr

/-- `File` from `main.go`: exported fields `UID`, `Path`, `SHA256`
(serialized to JSON) plus the unexported `content` and `processed`
fields (not serialized). -/
structure File where
  UID : String
  Path : String
  SHA256 : String
  content : String
  processed : Bool
deriving DecidableEq, Repr

/-- `type History map[string]*File`, as an association list; the list
order models one iteration order of the Go map. -/
abbrev History := List (String × File)

/-- Map lookup `g.history[k]` (first matching key). -/
def histLookup : History → String → Option File
  | [], _ => none
  | (k0, f0) :: t, k => if k0 = k then some f0 else histLookup t k

/-- Map store `m[k] = v`: replace the (first) entry with key `k`, or add
the key if absent. -/
def histInsert : History → String → File → History
  | [], k, v => [(k, v)]
  | (k0, f0) :: t, k, v =>
    if k0 = k then (k, v) :: t else (k0, f0) :: histInsert t k v

/-- In-place mutation `hf.processed = true` of the record the map holds
at key `k` (through the `*File` pointer obtained by lookup). -/
def histSetProcessed : History → String → History
  | [], _ => []
  | (k0, f0) :: t, k =>
    if k0 = k then (k0, { f0 with processed := true }) :: t
    else (k0, f0) :: histSetProcessed t k

/-- Map deletion `delete(m, k)`. -/
def histDelete (h : History) (k : String) : History :=
  h.filter (fun p => p.1 != k)

/-- `(f *File).moved(hf)`: different path, same uid, different content. -/
def File.moved (f hf : File) : Bool :=
  (f.Path != hf.Path) && (f.UID == hf.UID) && (f.SHA256 != hf.SHA256)

/-- `(f *File).modified(hf)`: same path, same uid, different content. -/
def File.modified (f hf : File) : Bool :=
  (f.Path == hf.Path) && (f.UID == hf.UID) && (f.SHA256 != hf.SHA256)

/-- The fixed repository path of the history file (`g.historyFile`). -/
def historyFile : String := "history.json"

/-- The state of the `Gitlab` syncer that the reconciliation logic
touches: the in-memory history, the pending action list and the action
kind chosen for the eventual history write-back.  The network client,
project id and branch play no part in the reconciliation. -/
structure Gitlab where
  history : History
  historyAction : FileActionValue
  actions : List CommitActionOptions
deriving DecidableEq, Repr

/-- `(g *Gitlab).add(in, action, prevPath)`: mark the file processed,
append one commit action (with `PreviousPath` set only when `prevPath`
is non-empty) and store the file in the history map under its uid. -/
def Gitlab.add (g : Gitlab) (inF : File) (action : FileActionValue)
    (prevPath : String) : Gitlab :=
  let f := { inF with processed := true }
  let opt : CommitActionOptions :=
    { Action := action
      FilePath := f.Path
      Content := some (FileContent.blob f.content)
      PreviousPath := if prevPath = "" then none else some prevPath }
  { g with actions := g.actions ++ [opt], history := histInsert g.history f.UID f }

/-- `(g *Gitlab).Add(in)`: reconcile one observed file against the
history map. -/
def Gitlab.Add (g : Gitlab) (inF : File) : Gitlab :=
  match histLookup g.history inF.UID with
  | none => g.add inF .create ""
  | some hf =>
    if inF.moved hf then g.add inF .move hf.Path
    else if inF.modified hf then g.add inF .update ""
    else { g with history := histSetProcessed g.history inF.UID }

/-- One Delete commit action for an orphaned history record. -/
def deleteActionFor (f : File) : CommitActionOptions :=
  { Action := .delete, FilePath := f.Path, Content := none, PreviousPath := none }

/-- The `for _, f := range g.history` loop of `deleteOrphans`: `kept`
holds the part of the map already iterated over, `toVisit` the part not
yet reached (in the iteration order the list fixes), and `deleted` the
keys removed by `delete(g.history, f.UID)` during the loop.  Per Go's
iteration semantics an entry whose key was deleted before it is reached
is not visited, and deleting `f.UID` removes that key from the whole
map (including the part already iterated over). -/
def sweepOrphans : History → History → List String → List CommitActionOptions →
    History × List CommitActionOptions
  | kept, [], _, acts => (kept, acts)
  | kept, (k, f) :: rest, deleted, acts =>
    if k ∈ deleted then sweepOrphans kept rest deleted acts
    else if f.processed then sweepOrphans (kept ++ [(k, f)]) rest deleted acts
    else
      sweepOrphans (histDelete (kept ++ [(k, f)]) f.UID) rest
        (f.UID :: deleted) (acts ++ [deleteActionFor f])

/-- `(g *Gitlab).deleteOrphans()`: emit one Delete action per
unprocessed history record and remove it from the history map. -/
def Gitlab.deleteOrphans (g : Gitlab) : Gitlab :=
  let r := sweepOrphans [] g.history [] g.actions
  { g with history := r.1, actions := r.2 }

/-- Key order used by `json.Marshal` on a Go map: ascending string
order of the keys. -/
def keyLE (p q : String × File) : Prop := p.1 ≤ q.1

instance : DecidableRel keyLE := fun p q => inferInstanceAs (Decidable (p.1 ≤ q.1))

/-- `json.Marshal(g.history)`: the JSON document, one object entry per
key in ascending key order, each carrying the exported fields
`uid`, `path`, `sha256` of the record (the unexported `content` and
`processed` fields are not serialized). -/
def serializeHistory (h : History) : List (String × String × String × String) :=
  (List.insertionSort keyLE h).map (fun p => (p.1, p.2.UID, p.2.Path, p.2.SHA256))

/-- `json.Unmarshal` of a history document into a fresh `History` map:
each entry yields a record with the serialized `uid`/`path`/`sha256`
and zero values for the unexported fields. -/
def deserializeHistory (doc : List (String × String × String × String)) : History :=
  doc.map (fun e => (e.1, { UID := e.2.1, Path := e.2.2.1, SHA256 := e.2.2.2,
                            content := "", processed := false }))

/-- The projection of a record that survives a serialize/deserialize
round trip: `uid`, `path` and `sha256` persist, the unexported fields
come back as zero values. -/
def persistedView (f : File) : File :=
  { UID := f.UID, Path := f.Path, SHA256 := f.SHA256, content := "", processed := false }

/-- `(g *Gitlab).updateHistory()`: if the history map is non-empty,
append one action on the history file, of the kind fixed at load time,
carrying the marshalled history. -/
def Gitlab.updateHistory (g : Gitlab) : Gitlab :=
  if g.history.length = 0 then g
  else
    { g with actions := g.actions ++
        [{ Action := g.historyAction
           FilePath := historyFile
           Content := some (FileContent.historyDoc (serializeHistory g.history))
           PreviousPath := none }] }

/-- `(g *Gitlab).Commit()`: sweep orphans; if no action is pending
return without committing (`none`); otherwise append the history
write-back action and hand the batch to `CreateCommit` (`some batch`). -/
def Gitlab.Commit (g : Gitlab) : Option (List CommitActionOptions) :=
  let g1 := g.deleteOrphans
  if g1.actions.isEmpty then none
  else some g1.updateHistory.actions

/-- The `*gitlab.Response` data `parseHistory` inspects. -/
structure GetFileResponse where
  statusCode : Nat
deriving DecidableEq, Repr

/-- Outcome of `g.client.RepositoryFiles.GetFile`: an error (with the
response, when any, carrying its HTTP status) or the base64-encoded
file content. -/
inductive GetFileResult
  | failure (resp : Option GetFileResponse) (err : String)
  | success (content : String)
deriving DecidableEq, Repr

/-- `http.StatusNotFound`. -/
def statusNotFound : Nat := 404

/-- `(g *Gitlab).parseHistory()`, with the fetch outcome and the two
library decoding steps (`base64.StdEncoding.DecodeString` on the
fetched content, `json.Unmarshal` into the empty history map) passed
in as parameters.  A 404 response is not an error: it keeps the empty
history and switches the write-back action to Create.  Every other
fetch, decode or unmarshal failure is returned as an error. -/
def Gitlab.parseHistory (g : Gitlab) (fetch : GetFileResult)
    (decode : String → Except String String)
    (unmarshal : String → Except String History) : Except String Gitlab :=
  match fetch with
  | .failure resp e =>
    if resp.map GetFileResponse.statusCode = some statusNotFound then
      Except.ok { g with historyAction := .create }
    else Except.error e
  | .success content =>
    match decode content with
    | Except.error e => Except.error e
    | Except.ok data =>
      match unmarshal data with
      | Except.error e => Except.error e
      | Except.ok h => Except.ok { g with history := h }

/-- `NewGitlab`: build the syncer with an empty history map, the fixed
history file path and Update as the default write-back action, then
parse the persisted history; a parse error aborts construction with a
wrapped error and no state. -/
def NewGitlab (fetch : GetFileResult)
    (decode : String → Except String String)
    (unmarshal : String → Except String History) : Except String Gitlab :=
  let g : Gitlab := { history := [], historyAction := .update, actions := [] }
  match g.parseHistory fetch decode unmarshal with
  | Except.error e => Except.error ("gitlab: error parsing history: " ++ e)
  | Except.ok g' => Except.ok g'

/-- The caller's add phase of one run: feed the observed files to
`Add` one at a time, in order. -/
def runAdds (g : Gitlab) (blobs : List File) : Gitlab :=
  blobs.foldl Gitlab.Add g

/-- Reloading a committed history: deserializing what was serialized,
as the next run's `parseHistory` does. -/
def reloadHistory (h : History) : History :=
  deserializeHistory (serializeHistory h)

/-! ### Basic lemmas about the association-list map operations -/

/-- Keys of a history map. -/
def keysOf (h : History) : List String := h.map Prod.fst

/-- A history map is consistent when every record's `UID` equals the
key it is stored under (as `add` always stores `in` under `in.UID`). -/
def consistentHist (h : History) : Prop := ∀ p ∈ h, p.2.UID = p.1

/-- A record the reconciler leaves alone: the incoming file is neither
moved nor modified with respect to it. -/
def benign (b f : File) : Prop := b.moved f = false ∧ b.modified f = false

theorem histLookup_insert_self (h : History) (k : String) (v : File) :
    histLookup (histInsert h k v) k = some v := by
  induction h with
  | nil => simp [histInsert, histLookup]
  | cons p t ih =>
    by_cases hk : p.1 = k
    · simp [histInsert, hk, histLookup]
    · simp [histInsert, hk, histLookup, ih]

theorem histLookup_insert_other (h : History) (k k' : String) (v : File)
    (hne : k' ≠ k) : histLookup (histInsert h k v) k' = histLookup h k' := by
  have hne' : k ≠ k' := Ne.symm hne
  induction h with
  | nil => simp [histInsert, histLookup, hne']
  | cons p t ih =>
    by_cases hk : p.1 = k
    · simp [histInsert, hk, histLookup, hne']
    · simp only [histInsert, hk, if_false, histLookup]
      by_cases hk' : p.1 = k'
      · simp [hk']
      · simp [hk', ih]

theorem histLookup_setProcessed_self (h : History) (k : String) :
    histLookup (histSetProcessed h k) k =
      (histLookup h k).map (fun f => { f with processed := true }) := by
  induction h with
  | nil => simp [histSetProcessed, histLookup]
  | cons p t ih =>
    by_cases hk : p.1 = k
    · simp [histSetProcessed, hk, histLookup]
    · simp [histSetProcessed, hk, histLookup, ih]

theorem histLookup_setProcessed_other (h : History) (k k' : String)
    (hne : k' ≠ k) : histLookup (histSetProcessed h k) k' = histLookup h k' := by
  have hne' : k ≠ k' := Ne.symm hne
  induction h with
  | nil => simp [histSetProcessed, histLookup]
  | cons p t ih =>
    by_cases hk : p.1 = k
    · simp [histSetProcessed, hk, histLookup, hne']
    · simp only [histSetProcessed, hk, if_false, histLookup]
      by_cases hk' : p.1 = k'
      · simp [hk']
      · simp [hk', ih]

theorem keysOf_setProcessed (h : History) (k : String) :
    keysOf (histSetProcessed h k) = keysOf h := by
  induction h with
  | nil => simp [histSetProcessed, keysOf]
  | cons p t ih =>
    by_cases hk : p.1 = k
    · simp [histSetProcessed, hk, keysOf]
    · simpa [histSetProcessed, hk, keysOf] using ih

theorem mem_keysOf_insert {h : History} {k k' : String} {v : File}
    (hm : k' ∈ keysOf (histInsert h k v)) : k' ∈ keysOf h ∨ k' = k := by
  induction h with
  | nil => simpa [histInsert, keysOf] using hm
  | cons p t ih =>
    by_cases hk : p.1 = k
    · simp only [histInsert, hk, if_true, keysOf, List.map_cons, List.mem_cons] at hm
      rcases hm with hm | hm
      · exact Or.inr hm
      · exact Or.inl (by simp [keysOf]; exact Or.inr (by simpa [keysOf] using hm))
    · simp only [histInsert, hk, if_false, keysOf, List.map_cons, List.mem_cons] at hm
      rcases hm with hm | hm
      · exact Or.inl (by simp [keysOf, hm])
      · rcases ih (by simpa [keysOf] using hm) with h1 | h1
        · exact Or.inl (by simp [keysOf] at h1 ⊢; exact Or.inr h1)
        · exact Or.inr h1

theorem keysOf_insert_nodup {h : History} {k : String} {v : File}
    (hnd : (keysOf h).Nodup) : (keysOf (histInsert h k v)).Nodup := by
  induction h with
  | nil => simp [histInsert, keysOf]
  | cons p t ih =>
    simp only [keysOf, List.map_cons, List.nodup_cons] at hnd
    by_cases hk : p.1 = k
    · subst hk
      simp only [histInsert, if_true, keysOf, List.map_cons, List.nodup_cons]
      exact ⟨by simpa [keysOf] using hnd.1, by simpa [keysOf] using hnd.2⟩
    · simp only [histInsert, hk, if_false, keysOf, List.map_cons, List.nodup_cons]
      refine ⟨?_, ih (by simpa [keysOf] using hnd.2)⟩
      intro hmem
      rcases mem_keysOf_insert (by simpa [keysOf] using hmem) with h1 | h1
      · exact hnd.1 (by simpa [keysOf] using h1)
      · exact hk h1

theorem mem_histInsert {h : History} {k : String} {v : File}
    {p : String × File} (hm : p ∈ histInsert h k v) : p = (k, v) ∨ p ∈ h := by
  induction h with
  | nil => simpa [histInsert] using hm
  | cons q t ih =>
    by_cases hk : q.1 = k
    · simp only [histInsert, hk, if_true, List.mem_cons] at hm
      rcases hm with hm | hm
      · exact Or.inl hm
      · exact Or.inr (List.mem_cons_of_mem _ hm)
    · simp only [histInsert, hk, if_false, List.mem_cons] at hm
      rcases hm with hm | hm
      · exact Or.inr (by simp [hm])
      · rcases ih hm with h1 | h1
        · exact Or.inl h1
        · exact Or.inr (List.mem_cons_of_mem _ h1)

theorem mem_histSetProcessed {h : History} {k : String}
    {p : String × File} (hm : p ∈ histSetProcessed h k) :
    p ∈ h ∨ (p.1 = k ∧ ∃ f, (k, f) ∈ h ∧ p.2 = { f with processed := true }) := by
  induction h with
  | nil => simp [histSetProcessed] at hm
  | cons q t ih =>
    by_cases hk : q.1 = k
    · simp only [histSetProcessed, hk, if_true, List.mem_cons] at hm
      rcases hm with hm | hm
      · right
        refine ⟨by simp [hm], q.2, ?_, by simp [hm]⟩
        rw [← hk]
        simp
      · exact Or.inl (List.mem_cons_of_mem _ hm)
    · simp only [histSetProcessed, hk, if_false, List.mem_cons] at hm
      rcases hm with hm | hm
      · exact Or.inl (by simp [hm])
      · rcases ih hm with h1 | ⟨hpk, f, hf, hpf⟩
        · exact Or.inl (List.mem_cons_of_mem _ h1)
        · exact Or.inr ⟨hpk, f, List.mem_cons_of_mem _ hf, hpf⟩

theorem setProcessed_mem_ne {h : History} {k : String} {p : String × File}
    (hm : p ∈ histSetProcessed h k) (hne : p.1 ≠ k) : p ∈ h := by
  rcases mem_histSetProcessed hm with h1 | ⟨hpk, _⟩
  · exact h1
  · exact absurd hpk hne

theorem setProcessed_mem_key {h : History} {k : String} {p : String × File}
    (hnd : (keysOf h).Nodup) (hm : p ∈ histSetProcessed h k) (hpk : p.1 = k) :
    p.2.processed = true := by
  induction h with
  | nil => simp [histSetProcessed] at hm
  | cons q t ih =>
    simp only [keysOf, List.map_cons, List.nodup_cons] at hnd
    by_cases hk : q.1 = k
    · simp only [histSetProcessed, hk, if_true, List.mem_cons] at hm
      rcases hm with hm | hm
      · simp [hm]
      · have h1 : p.1 ∈ List.map Prod.fst t := List.mem_map_of_mem Prod.fst hm
        rw [hpk, ← hk] at h1
        exact absurd h1 hnd.1
    · simp only [histSetProcessed, hk, if_false, List.mem_cons] at hm
      rcases hm with hm | hm
      · rw [hm] at hpk
        exact absurd hpk hk
      · exact ih (by simpa [keysOf] using hnd.2) hm

theorem benign_self (b : File) : benign b { b with processed := true } := by
  constructor <;> simp [File.moved, File.modified]

theorem benign_markProcessed {b f : File} (h : benign b f) :
    benign b { f with processed := true } := by
  simpa [benign, File.moved, File.modified] using h

theorem benign_persistedView {b f : File} (h : benign b f) :
    benign b (persistedView f) := by
  simpa [benign, File.moved, File.modified, persistedView] using h

/-! ### Characterizations of `Add` -/

theorem Gitlab.add_eq (g : Gitlab) (inF : File) (action : FileActionValue)
    (prevPath : String) :
    g.add inF action prevPath =
      { g with
        actions := g.actions ++
          [{ Action := action, FilePath := inF.Path,
             Content := some (FileContent.blob inF.content),
             PreviousPath := if prevPath = "" then none else some prevPath }],
        history := histInsert g.history inF.UID { inF with processed := true } } := rfl

theorem Gitlab.Add_of_none {g : Gitlab} {b : File}
    (hl : histLookup g.history b.UID = none) :
    g.Add b = g.add b .create "" := by
  unfold Gitlab.Add
  rw [hl]

theorem Gitlab.Add_of_moved {g : Gitlab} {b hf : File}
    (hl : histLookup g.history b.UID = some hf) (hm : b.moved hf = true) :
    g.Add b = g.add b .move hf.Path := by
  unfold Gitlab.Add
  rw [hl]
  simp [hm]

theorem Gitlab.Add_of_modified {g : Gitlab} {b hf : File}
    (hl : histLookup g.history b.UID = some hf) (hm : b.moved hf = false)
    (hmo : b.modified hf = true) :
    g.Add b = g.add b .update "" := by
  unfold Gitlab.Add
  rw [hl]
  simp [hm, hmo]

theorem Gitlab.Add_of_benign {g : Gitlab} {b hf : File}
    (hl : histLookup g.history b.UID = some hf) (hm : b.moved hf = false)
    (hmo : b.modified hf = false) :
    g.Add b = { g with history := histSetProcessed g.history b.UID } := by
  unfold Gitlab.Add
  rw [hl]
  simp [hm, hmo]

theorem Gitlab.Add_history_forms (g : Gitlab) (b : File) :
    (g.Add b).history = histInsert g.history b.UID { b with processed := true } ∨
    (g.Add b).history = histSetProcessed g.history b.UID := by
  cases hl : histLookup g.history b.UID with
  | none => exact Or.inl (by rw [Gitlab.Add_of_none hl, Gitlab.add_eq])
  | some hf =>
    cases hm : b.moved hf with
    | true => exact Or.inl (by rw [Gitlab.Add_of_moved hl hm, Gitlab.add_eq])
    | false =>
      cases hmo : b.modified hf with
      | true => exact Or.inl (by rw [Gitlab.Add_of_modified hl hm hmo, Gitlab.add_eq])
      | false => exact Or.inr (by rw [Gitlab.Add_of_benign hl hm hmo])

theorem Gitlab.Add_lookup_other (g : Gitlab) (b : File) {k : String}
    (hk : k ≠ b.UID) :
    histLookup (g.Add b).history k = histLookup g.history k := by
  rcases Gitlab.Add_history_forms g b with h | h <;> rw [h]
  · exact histLookup_insert_other _ _ _ _ hk
  · exact histLookup_setProcessed_other _ _ _ hk

theorem Gitlab.Add_keys_nodup {g : Gitlab} (b : File)
    (hnd : (keysOf g.history).Nodup) : (keysOf (g.Add b).history).Nodup := by
  rcases Gitlab.Add_history_forms g b with h | h <;> rw [h]
  · exact keysOf_insert_nodup hnd
  · rw [keysOf_setProcessed]
    exact hnd

theorem Gitlab.Add_consistent {g : Gitlab} (b : File)
    (hc : consistentHist g.history) : consistentHist (g.Add b).history := by
  rcases Gitlab.Add_history_forms g b with h | h <;> rw [h] <;> intro p hp
  · rcases mem_histInsert hp with h1 | h1
    · rw [h1]
    · exact hc p h1
  · rcases mem_histSetProcessed hp with h1 | ⟨hpk, f, hf, hpf⟩
    · exact hc p h1
    · have := hc (b.UID, f) hf
      simp only [hpf, hpk]
      simpa using this

theorem Gitlab.Add_processed_source {g : Gitlab} {b : File} {p : String × File}
    (hp : p ∈ (g.Add b).history) (hproc : p.2.processed = true) :
    p.1 = b.UID ∨ (p ∈ g.history ∧ p.2.processed = true) := by
  rcases Gitlab.Add_history_forms g b with h | h <;> rw [h] at hp
  · rcases mem_histInsert hp with h1 | h1
    · exact Or.inl (by rw [h1])
    · exact Or.inr ⟨h1, hproc⟩
  · rcases mem_histSetProcessed hp with h1 | ⟨hpk, _⟩
    · exact Or.inr ⟨h1, hproc⟩
    · exact Or.inl hpk

theorem Gitlab.Add_self_lookup (g : Gitlab) (b : File) :
    ∃ f, histLookup (g.Add b).history b.UID = some f ∧
      f.processed = true ∧ benign b f := by
  cases hl : histLookup g.history b.UID with
  | none =>
    refine ⟨{ b with processed := true }, ?_, rfl, benign_self b⟩
    rw [Gitlab.Add_of_none hl, Gitlab.add_eq]
    exact histLookup_insert_self _ _ _
  | some hf =>
    cases hm : b.moved hf with
    | true =>
      refine ⟨{ b with processed := true }, ?_, rfl, benign_self b⟩
      rw [Gitlab.Add_of_moved hl hm, Gitlab.add_eq]
      exact histLookup_insert_self _ _ _
    | false =>
      cases hmo : b.modified hf with
      | true =>
        refine ⟨{ b with processed := true }, ?_, rfl, benign_self b⟩
        rw [Gitlab.Add_of_modified hl hm hmo, Gitlab.add_eq]
        exact histLookup_insert_self _ _ _
      | false =>
        refine ⟨{ hf with processed := true }, ?_, rfl,
          benign_markProcessed ⟨hm, hmo⟩⟩
        rw [Gitlab.Add_of_benign hl hm hmo]
        show histLookup (histSetProcessed g.history b.UID) b.UID = _
        rw [histLookup_setProcessed_self, hl]
        rfl

/-! ### Lemmas about a whole add phase -/

theorem runAdds_cons (g : Gitlab) (b : File) (S : List File) :
    runAdds g (b :: S) = runAdds (g.Add b) S := rfl

theorem runAdds_keys_nodup (S : List File) (g : Gitlab)
    (hnd : (keysOf g.history).Nodup) :
    (keysOf (runAdds g S).history).Nodup := by
  induction S generalizing g with
  | nil => exact hnd
  | cons b S ih => exact ih _ (Gitlab.Add_keys_nodup b hnd)

theorem runAdds_consistent (S : List File) (g : Gitlab)
    (hc : consistentHist g.history) : consistentHist (runAdds g S).history := by
  induction S generalizing g with
  | nil => exact hc
  | cons b S ih => exact ih _ (Gitlab.Add_consistent b hc)

theorem runAdds_lookup_frame (S : List File) (g : Gitlab) {k : String}
    (hk : ∀ b ∈ S, b.UID ≠ k) :
    histLookup (runAdds g S).history k = histLookup g.history k := by
  induction S generalizing g with
  | nil => rfl
  | cons b S ih =>
    rw [runAdds_cons, ih _ (fun b' hb' => hk b' (List.mem_cons_of_mem _ hb')),
      Gitlab.Add_lookup_other g b (Ne.symm (hk b (List.mem_cons_self b S)))]

theorem runAdds_processed_source (S : List File) (g : Gitlab) {p : String × File}
    (hp : p ∈ (runAdds g S).history) (hproc : p.2.processed = true) :
    (∃ b ∈ S, b.UID = p.1) ∨ (p ∈ g.history ∧ p.2.processed = true) := by
  induction S generalizing g with
  | nil => exact Or.inr ⟨hp, hproc⟩
  | cons b S ih =>
    rw [runAdds_cons] at hp
    rcases ih (g.Add b) hp with ⟨b', hb', he⟩ | h1
    · exact Or.inl ⟨b', List.mem_cons_of_mem _ hb', he⟩
    · rcases Gitlab.Add_processed_source h1.1 h1.2 with h2 | h2
      · exact Or.inl ⟨b, List.mem_cons_self b S, h2.symm⟩
      · exact Or.inr h2

theorem runAdds_lookup_processed (S : List File) (g : Gitlab)
    (hS : (S.map File.UID).Nodup) :
    ∀ b ∈ S, ∃ f, histLookup (runAdds g S).history b.UID = some f ∧
      f.processed = true ∧ benign b f := by
  induction S generalizing g with
  | nil => intro b hb; exact absurd hb (List.not_mem_nil b)
  | cons b0 S ih =>
    simp only [List.map_cons, List.nodup_cons] at hS
    intro b hb
    rcases List.mem_cons.mp hb with rfl | hb'
    · obtain ⟨f, hf, hfp, hfb⟩ := Gitlab.Add_self_lookup g b
      refine ⟨f, ?_, hfp, hfb⟩
      rw [runAdds_cons, runAdds_lookup_frame S _ ?_, hf]
      intro b' hb' he
      exact hS.1 (he ▸ List.mem_map_of_mem File.UID hb')
    · rw [runAdds_cons]
      exact ih (g.Add b0) hS.2 b hb'

/-! ### Lemmas about the orphan sweep -/

theorem histDelete_of_not_mem {h : History} {k : String}
    (hk : k ∉ keysOf h) : histDelete h k = h := by
  induction h with
  | nil => rfl
  | cons p t ih =>
    simp only [keysOf, List.map_cons, List.mem_cons, not_or] at hk
    simp only [histDelete, List.filter_cons]
    rw [if_pos (by simpa using Ne.symm hk.1)]
    have ht : histDelete t k = t := ih (by simpa [keysOf] using hk.2)
    simp only [histDelete] at ht
    rw [ht]

theorem sweepOrphans_consistent (h : History) :
    ∀ (kept : History) (deleted : List String) (acts : List CommitActionOptions),
    consistentHist h → (keysOf (kept ++ h)).Nodup →
    (∀ k ∈ deleted, k ∉ keysOf h) →
    sweepOrphans kept h deleted acts =
      (kept ++ h.filter (fun p => p.2.processed),
       acts ++ (h.filter (fun p => !p.2.processed)).map
         (fun p => deleteActionFor p.2)) := by
  induction h with
  | nil => intro kept deleted acts _ _ _; simp [sweepOrphans]
  | cons p t ih =>
    intro kept deleted acts hc hnd hdel
    obtain ⟨k, f⟩ := p
    have hcf : f.UID = k := hc (k, f) (List.mem_cons_self _ _)
    have hct : consistentHist t := fun q hq => hc q (List.mem_cons_of_mem _ hq)
    have hnd' : (keysOf kept ++ k :: keysOf t).Nodup := by
      simpa [keysOf] using hnd
    obtain ⟨hn1, hn2, hn3⟩ := List.nodup_append.mp hnd'
    have hkk : k ∉ keysOf kept := fun hmem => hn3 hmem (List.mem_cons_self _ _)
    have hkt : k ∉ keysOf t := (List.nodup_cons.mp hn2).1
    have hknd : k ∉ deleted := fun hmem => hdel k hmem (by simp [keysOf])
    have hdelt : ∀ k' ∈ deleted, k' ∉ keysOf t := by
      intro k' hk' hmem
      exact hdel k' hk' (by simp only [keysOf, List.map_cons, List.mem_cons]
                            exact Or.inr hmem)
    cases hp : f.processed with
    | true =>
      rw [sweepOrphans, if_neg hknd, if_pos hp]
      rw [ih (kept ++ [(k, f)]) deleted acts hct
        (by simpa [keysOf, List.append_assoc] using hnd) hdelt]
      simp [List.filter_cons, hp, List.append_assoc]
    | false =>
      rw [sweepOrphans, if_neg hknd, if_neg (by simp [hp])]
      have hd1 : histDelete (kept ++ [(k, f)]) f.UID = kept := by
        rw [hcf]
        simp only [histDelete, List.filter_append]
        have hk1 : List.filter (fun p => p.1 != k) kept = kept := by
          have := histDelete_of_not_mem hkk
          simpa [histDelete] using this
        rw [hk1]
        simp
      have hndkt : (keysOf (kept ++ t)).Nodup := by
        simp only [keysOf, List.map_append]
        exact List.nodup_append.mpr
          ⟨hn1, (List.nodup_cons.mp hn2).2,
           fun a ha hb => hn3 ha (List.mem_cons_of_mem _ hb)⟩
      have hdelt' : ∀ k' ∈ f.UID :: deleted, k' ∉ keysOf t := by
        intro k' hk'
        rcases List.mem_cons.mp hk' with rfl | hk''
        · rw [hcf]; exact hkt
        · exact hdelt k' hk''
      rw [hd1, ih kept (f.UID :: deleted) (acts ++ [deleteActionFor f]) hct hndkt hdelt']
      simp [List.filter_cons, hp, List.append_assoc]

theorem sweepOrphans_allProcessed (h : History) :
    ∀ (kept : History) (acts : List CommitActionOptions),
    (∀ p ∈ h, p.2.processed = true) →
    sweepOrphans kept h [] acts = (kept ++ h, acts) := by
  induction h with
  | nil => intro kept acts _; simp [sweepOrphans]
  | cons p t ih =>
    intro kept acts hp
    obtain ⟨k, f⟩ := p
    rw [sweepOrphans, if_neg (List.not_mem_nil k),
      if_pos (hp (k, f) (List.mem_cons_self _ _))]
    rw [ih (kept ++ [(k, f)]) acts (fun q hq => hp q (List.mem_cons_of_mem _ hq))]
    simp

/-! ### Lemmas about serialization and reloading -/

theorem histLookup_filter_processed {h : History} {k : String} {f : File}
    (hl : histLookup h k = some f) (hp : f.processed = true) :
    histLookup (h.filter (fun p => p.2.processed)) k = some f := by
  induction h with
  | nil => simp [histLookup] at hl
  | cons q t ih =>
    obtain ⟨k0, f0⟩ := q
    by_cases hk : k0 = k
    · simp only [histLookup, hk, if_true] at hl
      obtain rfl : f0 = f := by injection hl
      rw [List.filter_cons_of_pos (by simpa using hp)]
      simp [histLookup, hk]
    · simp only [histLookup, hk, if_false] at hl
      cases hp0 : f0.processed with
      | true =>
        rw [List.filter_cons_of_pos (by simpa using hp0)]
        simp only [histLookup, hk, if_false]
        exact ih hl
      | false =>
        rw [List.filter_cons_of_neg (by simpa using hp0)]
        exact ih hl

theorem histLookup_perm {l l' : History} (hp : List.Perm l l') :
    (keysOf l).Nodup → ∀ k, histLookup l k = histLookup l' k := by
  induction hp with
  | nil => intro _ _; rfl
  | cons x _ ih =>
    intro hnd k
    obtain ⟨k0, f0⟩ := x
    simp only [keysOf, List.map_cons, List.nodup_cons] at hnd
    by_cases hk : k0 = k
    · simp [histLookup, hk]
    · simp only [histLookup, hk, if_false]
      exact ih (by simpa [keysOf] using hnd.2) k
  | swap x y l =>
    intro hnd k
    obtain ⟨kx, fx⟩ := x
    obtain ⟨ky, fy⟩ := y
    simp only [keysOf, List.map_cons, List.nodup_cons, List.mem_cons] at hnd
    have hxy : ky ≠ kx := fun he => hnd.1 (Or.inl he)
    by_cases h1 : ky = k <;> by_cases h2 : kx = k
    · exact absurd (h1.trans h2.symm) hxy
    · simp [histLookup, h1, h2]
    · simp [histLookup, h1, h2]
    · simp [histLookup, h1, h2]
  | trans p1 p2 ih1 ih2 =>
    intro hnd k
    rw [ih1 hnd k]
    exact ih2 ((p1.map Prod.fst).nodup (by simpa [keysOf] using hnd)) k

theorem histLookup_map_view (l : History) (k : String) :
    histLookup (l.map (fun p => (p.1, persistedView p.2))) k =
      (histLookup l k).map persistedView := by
  induction l with
  | nil => rfl
  | cons p t ih =>
    by_cases hk : p.1 = k <;> simp [histLookup, hk, ih]

theorem reloadHistory_eq (h : History) :
    reloadHistory h =
      (List.insertionSort keyLE h).map (fun p => (p.1, persistedView p.2)) := by
  simp only [reloadHistory, deserializeHistory, serializeHistory, List.map_map]
  rfl

theorem keysOf_reload_perm (h : History) :
    List.Perm (keysOf (reloadHistory h)) (keysOf h) := by
  rw [reloadHistory_eq]
  have h1 : keysOf ((List.insertionSort keyLE h).map
      (fun p => (p.1, persistedView p.2))) = keysOf (List.insertionSort keyLE h) := by
    simp only [keysOf, List.map_map]
    rfl
  rw [h1]
  exact (List.perm_insertionSort keyLE h).map Prod.fst

theorem histLookup_reload {h : History} (hnd : (keysOf h).Nodup) (k : String) :
    histLookup (reloadHistory h) k = (histLookup h k).map persistedView := by
  rw [reloadHistory_eq, histLookup_map_view]
  congr 1
  exact histLookup_perm (List.perm_insertionSort keyLE h)
    ((((List.perm_insertionSort keyLE h).map Prod.fst).symm).nodup
      (by simpa [keysOf] using hnd)) k

/-! ### Shared case analyses of `Add` used by several claims -/

theorem moved_eq_true {b hf : File} (hu : hf.UID = b.UID)
    (hp : b.Path ≠ hf.Path) (hs : b.SHA256 ≠ hf.SHA256) : b.moved hf = true := by
  simp [File.moved, hu, hp, hs]

theorem moved_eq_false_of_sha {b hf : File} (hs : hf.SHA256 = b.SHA256) :
    b.moved hf = false := by
  simp [File.moved, hs]

theorem modified_eq_false_of_sha {b hf : File} (hs : hf.SHA256 = b.SHA256) :
    b.modified hf = false := by
  simp [File.modified, hs]

theorem Add_benign_case {g : Gitlab} {b hf : File}
    (hl : histLookup g.history b.UID = some hf)
    (hm : b.moved hf = false) (hmo : b.modified hf = false) :
    (g.Add b).actions = g.actions ∧
    (g.Add b).history = histSetProcessed g.history b.UID ∧
    histLookup (g.Add b).history b.UID = some { hf with processed := true } := by
  have hAdd := Gitlab.Add_of_benign hl hm hmo
  refine ⟨by rw [hAdd], by rw [hAdd], ?_⟩
  rw [hAdd]
  show histLookup (histSetProcessed g.history b.UID) b.UID = _
  rw [histLookup_setProcessed_self, hl]
  rfl

theorem Add_moved_case {g : Gitlab} {b hf : File}
    (hl : histLookup g.history b.UID = some hf) (hm : b.moved hf = true) :
    (g.Add b).actions = g.actions ++
      [{ Action := .move, FilePath := b.Path,
         Content := some (FileContent.blob b.content),
         PreviousPath := if hf.Path = "" then none else some hf.Path }] ∧
    (g.Add b).history = histInsert g.history b.UID { b with processed := true } := by
  rw [Gitlab.Add_of_moved hl hm, Gitlab.add_eq]
  exact ⟨rfl, rfl⟩

/-! ### Example inputs used by witnesses and counterexamples -/

/-- An observed file with the given uid, path, fingerprint and content. -/
def exFile (u p s c : String) : File :=
  { UID := u, Path := p, SHA256 := s, content := c, processed := false }

/-- A freshly loaded syncer state holding the given history map. -/
def exState (h : History) : Gitlab :=
  { history := h, historyAction := .update, actions := [] }

/-! ### The claims -/

/-- C4 (confirmed): for every blob whose history record (looked up by
the blob's id) carries the same fingerprint, `Add` emits no action —
whether or not the paths agree — and only sets the record's processed
flag, so the orphan sweep will keep it. -/
theorem Add_unchanged_no_action (g : Gitlab) (b hf : File)
    (hl : histLookup g.history b.UID = some hf)
    (hsha : hf.SHA256 = b.SHA256) :
    (g.Add b).actions = g.actions ∧
    (g.Add b).history = histSetProcessed g.history b.UID ∧
    histLookup (g.Add b).history b.UID = some { hf with processed := true } :=
  Add_benign_case hl (moved_eq_false_of_sha hsha) (modified_eq_false_of_sha hsha)

/-- Witness for C4 at a concrete pure rename: same fingerprint,
different path. -/
theorem Add_unchanged_no_action_witness :
    (Gitlab.Add (exState [("u1", exFile "u1" "/a.json" "s" "")])
        (exFile "u1" "/b.json" "s" "c")).actions =
      (exState [("u1", exFile "u1" "/a.json" "s" "")]).actions ∧
    (Gitlab.Add (exState [("u1", exFile "u1" "/a.json" "s" "")])
        (exFile "u1" "/b.json" "s" "c")).history =
      histSetProcessed (exState [("u1", exFile "u1" "/a.json" "s" "")]).history
        (exFile "u1" "/b.json" "s" "c").UID ∧
    histLookup (Gitlab.Add (exState [("u1", exFile "u1" "/a.json" "s" "")])
        (exFile "u1" "/b.json" "s" "c")).history
        (exFile "u1" "/b.json" "s" "c").UID =
      some { exFile "u1" "/a.json" "s" "" with processed := true } :=
  Add_unchanged_no_action _ _ _ (by decide) (by decide)

/-- C6 (confirmed): a blob whose id is absent from history yields
exactly one appended Create action carrying its path and content, the
blob (marked processed) is inserted into the history under its id. -/
theorem Add_create_new (g : Gitlab) (b : File)
    (hl : histLookup g.history b.UID = none) :
    g.Add b =
      { g with
        actions := g.actions ++
          [{ Action := .create, FilePath := b.Path,
             Content := some (FileContent.blob b.content),
             PreviousPath := none }],
        history := histInsert g.history b.UID { b with processed := true } } ∧
    histLookup (g.Add b).history b.UID = some { b with processed := true } := by
  have h1 := Gitlab.Add_of_none hl
  constructor
  · rw [h1, Gitlab.add_eq]
    simp
  · rw [h1, Gitlab.add_eq]
    exact histLookup_insert_self _ _ _

/-- Witness for C6: one new blob against an empty history. -/
theorem Add_create_new_witness :
    Gitlab.Add (exState []) (exFile "go1" "/a.json" "111" "body") =
      { exState [] with
        actions := (exState []).actions ++
          [{ Action := .create, FilePath := (exFile "go1" "/a.json" "111" "body").Path,
             Content := some (FileContent.blob (exFile "go1" "/a.json" "111" "body").content),
             PreviousPath := none }],
        history := histInsert (exState []).history (exFile "go1" "/a.json" "111" "body").UID
          { exFile "go1" "/a.json" "111" "body" with processed := true } } ∧
    histLookup (Gitlab.Add (exState []) (exFile "go1" "/a.json" "111" "body")).history
        (exFile "go1" "/a.json" "111" "body").UID =
      some { exFile "go1" "/a.json" "111" "body" with processed := true } :=
  Add_create_new _ _ (by decide)

/-- C3 counterexample: a history record whose stored path is the empty
string.  `add` is called with `prevPath = hf.Path = ""`, so the single
Move action it appends carries no `PreviousPath` at all — not the
record's path, as the claim requires. -/
theorem Add_move_empty_path_counterexample :
    (Gitlab.Add (exState [("u1", exFile "u1" "" "s1" "")])
        (exFile "u1" "/a.json" "s2" "new")).actions.map
        CommitActionOptions.Action = [FileActionValue.move] ∧
    (Gitlab.Add (exState [("u1", exFile "u1" "" "s1" "")])
        (exFile "u1" "/a.json" "s2" "new")).actions.map
        CommitActionOptions.PreviousPath ≠
      [some (exFile "u1" "" "s1" "").Path] := by
  decide

/-- C3 (corrected): for a blob matching a history record (same id)
with different path and different fingerprint, `Add` appends exactly
one Move action whose `FilePath` is the blob's path and whose
`PreviousPath` is the record's path when that path is non-empty — and
is left unset when the record's stored path is the empty string — and
overwrites the history entry at the blob's id with the blob itself
(path, fingerprint and id taken from the blob, processed set). -/
theorem Add_move_action (g : Gitlab) (b hf : File)
    (hl : histLookup g.history b.UID = some hf)
    (huid : hf.UID = b.UID)
    (hpath : b.Path ≠ hf.Path)
    (hsha : b.SHA256 ≠ hf.SHA256) :
    (g.Add b).actions = g.actions ++
      [{ Action := .move, FilePath := b.Path,
         Content := some (FileContent.blob b.content),
         PreviousPath := if hf.Path = "" then none else some hf.Path }] ∧
    (g.Add b).history = histInsert g.history b.UID { b with processed := true } ∧
    histLookup (g.Add b).history b.UID = some { b with processed := true } := by
  obtain ⟨h1, h2⟩ := Add_moved_case hl (moved_eq_true huid hpath hsha)
  exact ⟨h1, h2, by rw [h2]; exact histLookup_insert_self _ _ _⟩

/-- Witness for C3 (amended) at a concrete moved blob with a non-empty
previous path. -/
theorem Add_move_action_witness :
    (Gitlab.Add (exState [("go1", exFile "go1" "/a.json" "111" "")])
        (exFile "go1" "/b.json" "222" "body")).actions =
      (exState [("go1", exFile "go1" "/a.json" "111" "")]).actions ++
      [{ Action := .move, FilePath := (exFile "go1" "/b.json" "222" "body").Path,
         Content := some (FileContent.blob (exFile "go1" "/b.json" "222" "body").content),
         PreviousPath := if (exFile "go1" "/a.json" "111" "").Path = "" then none
           else some (exFile "go1" "/a.json" "111" "").Path }] ∧
    (Gitlab.Add (exState [("go1", exFile "go1" "/a.json" "111" "")])
        (exFile "go1" "/b.json" "222" "body")).history =
      histInsert (exState [("go1", exFile "go1" "/a.json" "111" "")]).history
        (exFile "go1" "/b.json" "222" "body").UID
        { exFile "go1" "/b.json" "222" "body" with processed := true } ∧
    histLookup (Gitlab.Add (exState [("go1", exFile "go1" "/a.json" "111" "")])
        (exFile "go1" "/b.json" "222" "body")).history
        (exFile "go1" "/b.json" "222" "body").UID =
      some { exFile "go1" "/b.json" "222" "body" with processed := true } :=
  Add_move_action _ _ _ (by decide) (by decide) (by decide) (by decide)

/-- C10 (confirmed): a pure rename (same fingerprint, different path)
leaves the stored record's path and fingerprint untouched — only its
processed flag is set and no action is emitted — so a later content
change for the same id is detected as a move whose `PreviousPath` is
computed from the record's original path. -/
theorem Add_pure_rename_frame (g : Gitlab) (b hf b2 : File)
    (hl : histLookup g.history b.UID = some hf)
    (hsha : hf.SHA256 = b.SHA256)
    (huid : hf.UID = b.UID)
    (h2uid : b2.UID = b.UID)
    (h2sha : b2.SHA256 ≠ hf.SHA256)
    (h2path : b2.Path ≠ hf.Path) :
    (g.Add b).actions = g.actions ∧
    histLookup (g.Add b).history b.UID = some { hf with processed := true } ∧
    ((g.Add b).Add b2).actions = g.actions ++
      [{ Action := .move, FilePath := b2.Path,
         Content := some (FileContent.blob b2.content),
         PreviousPath := if hf.Path = "" then none else some hf.Path }] := by
  obtain ⟨ha1, hh1, hl1⟩ := Add_benign_case hl
    (moved_eq_false_of_sha hsha) (modified_eq_false_of_sha hsha)
  refine ⟨ha1, hl1, ?_⟩
  have hl2 : histLookup (g.Add b).history b2.UID =
      some { hf with processed := true } := by
    rw [h2uid]
    exact hl1
  have hm2 : b2.moved { hf with processed := true } = true := by
    apply moved_eq_true
    · show hf.UID = b2.UID
      rw [huid, h2uid]
    · exact h2path
    · exact h2sha
  obtain ⟨ha2, _⟩ := Add_moved_case hl2 hm2
  rw [ha2, ha1]

/-- Witness for C10: rename first, then a content change; the move is
reported from the original path. -/
theorem Add_pure_rename_frame_witness :
    (Gitlab.Add (exState [("u1", exFile "u1" "/a.json" "s" "")])
        (exFile "u1" "/b.json" "s" "c")).actions =
      (exState [("u1", exFile "u1" "/a.json" "s" "")]).actions ∧
    histLookup (Gitlab.Add (exState [("u1", exFile "u1" "/a.json" "s" "")])
        (exFile "u1" "/b.json" "s" "c")).history
        (exFile "u1" "/b.json" "s" "c").UID =
      some { exFile "u1" "/a.json" "s" "" with processed := true } ∧
    ((Gitlab.Add (exState [("u1", exFile "u1" "/a.json" "s" "")])
        (exFile "u1" "/b.json" "s" "c")).Add
        (exFile "u1" "/c.json" "s2" "c2")).actions =
      (exState [("u1", exFile "u1" "/a.json" "s" "")]).actions ++
      [{ Action := .move, FilePath := (exFile "u1" "/c.json" "s2" "c2").Path,
         Content := some (FileContent.blob (exFile "u1" "/c.json" "s2" "c2").content),
         PreviousPath := if (exFile "u1" "/a.json" "s" "").Path = "" then none
           else some (exFile "u1" "/a.json" "s" "").Path }] :=
  Add_pure_rename_frame _ _ _ _ (by decide) (by decide) (by decide) (by decide)
    (by decide) (by decide)

/-- C7 (confirmed): over a consistent history map with distinct keys,
the orphan sweep emits exactly one Delete action (carrying the
record's path) per record left unprocessed, removes exactly those
records from the map, and keeps every processed record with no Delete
action for it. -/
theorem deleteOrphans_spec (g : Gitlab)
    (hc : consistentHist g.history)
    (hnd : (keysOf g.history).Nodup) :
    (g.deleteOrphans).history = g.history.filter (fun p => p.2.processed) ∧
    (g.deleteOrphans).actions = g.actions ++
      (g.history.filter (fun p => !p.2.processed)).map
        (fun p => deleteActionFor p.2) := by
  unfold Gitlab.deleteOrphans
  rw [sweepOrphans_consistent g.history [] [] g.actions hc (by simpa using hnd)
    (by intro k hk; cases hk)]
  exact ⟨rfl, rfl⟩

/-- Witness for C7: two records, one processed and one orphaned. -/
theorem deleteOrphans_spec_witness :
    (Gitlab.deleteOrphans (exState
        [("a", { exFile "a" "/a.json" "1" "" with processed := true }),
         ("b", exFile "b" "/b.json" "2" "")])).history =
      (exState
        [("a", { exFile "a" "/a.json" "1" "" with processed := true }),
         ("b", exFile "b" "/b.json" "2" "")]).history.filter
        (fun p => p.2.processed) ∧
    (Gitlab.deleteOrphans (exState
        [("a", { exFile "a" "/a.json" "1" "" with processed := true }),
         ("b", exFile "b" "/b.json" "2" "")])).actions =
      (exState
        [("a", { exFile "a" "/a.json" "1" "" with processed := true }),
         ("b", exFile "b" "/b.json" "2" "")]).actions ++
      ((exState
        [("a", { exFile "a" "/a.json" "1" "" with processed := true }),
         ("b", exFile "b" "/b.json" "2" "")]).history.filter
        (fun p => !p.2.processed)).map (fun p => deleteActionFor p.2) :=
  deleteOrphans_spec _ (by unfold consistentHist; decide) (by decide)

theorem deleteOrphans_historyAction (g : Gitlab) :
    (g.deleteOrphans).historyAction = g.historyAction := rfl

/-- C1 counterexample: a run whose only action is the orphan Delete of
the single history record.  After the sweep the action list is
non-empty but the history map is empty, so `updateHistory` returns
without appending anything: the committed batch is the lone Delete and
contains no action on the history file at all. -/
theorem Commit_history_action_counterexample :
    Gitlab.Commit (exState [("u1", exFile "u1" "/a.json" "s" "")]) =
      some [{ Action := .delete, FilePath := "/a.json",
              Content := none, PreviousPath := none }] ∧
    ((Gitlab.Commit (exState [("u1", exFile "u1" "/a.json" "s" "")])).getD []).all
      (fun a => a.FilePath != historyFile) = true := by
  decide

/-- C1 (corrected): after the orphan sweep, `Commit` skips entirely
when no action is pending; when actions are pending it appends exactly
one final history-file action (Create or Update as fixed at load time,
carrying the serialized post-sweep history) — except when the sweep
has emptied the history map, in which case the batch is committed
without any history-file action. -/
theorem Commit_history_action (g : Gitlab) :
    ((g.deleteOrphans).actions = [] → g.Commit = none) ∧
    ((g.deleteOrphans).actions ≠ [] → (g.deleteOrphans).history = [] →
      g.Commit = some (g.deleteOrphans).actions) ∧
    ((g.deleteOrphans).actions ≠ [] → (g.deleteOrphans).history ≠ [] →
      g.Commit = some ((g.deleteOrphans).actions ++
        [{ Action := g.historyAction, FilePath := historyFile,
           Content := some (FileContent.historyDoc
             (serializeHistory (g.deleteOrphans).history)),
           PreviousPath := none }])) := by
  refine ⟨fun h1 => ?_, fun h1 h2 => ?_, fun h1 h2 => ?_⟩
  · unfold Gitlab.Commit
    rw [if_pos (by simp [h1])]
  · unfold Gitlab.Commit
    rw [if_neg (by simpa [List.isEmpty_iff] using h1)]
    unfold Gitlab.updateHistory
    rw [if_pos (by simp [h2])]
  · unfold Gitlab.Commit
    rw [if_neg (by simpa [List.isEmpty_iff] using h1)]
    unfold Gitlab.updateHistory
    rw [if_neg (by simpa [List.length_eq_zero] using h2)]
    rfl

/-- Witness for C1 (amended), third branch: a processed record plus a
pending Create action; the history write-back is appended last. -/
theorem Commit_history_action_witness :
    Gitlab.Commit
      { history := [("u1", { exFile "u1" "/a.json" "s" "c" with processed := true })],
        historyAction := .update,
        actions := [{ Action := .create, FilePath := "/a.json",
                      Content := some (FileContent.blob "c"),
                      PreviousPath := none }] } =
      some ((Gitlab.deleteOrphans
        { history := [("u1", { exFile "u1" "/a.json" "s" "c" with processed := true })],
          historyAction := .update,
          actions := [{ Action := .create, FilePath := "/a.json",
                        Content := some (FileContent.blob "c"),
                        PreviousPath := none }] }).actions ++
        [{ Action := FileActionValue.update, FilePath := historyFile,
           Content := some (FileContent.historyDoc
             (serializeHistory (Gitlab.deleteOrphans
               { history := [("u1", { exFile "u1" "/a.json" "s" "c" with processed := true })],
                 historyAction := .update,
                 actions := [{ Action := .create, FilePath := "/a.json",
                               Content := some (FileContent.blob "c"),
                               PreviousPath := none }] }).history)),
           PreviousPath := none }]) :=
  (Commit_history_action _).2.2 (by decide) (by decide)

/-- C2 (code bug): the committed order of the orphan Delete actions
follows the iteration order of the Go `history` map, which the
language does not fix.  Two histories that are equal as maps — the
same key/record pairs, here merely listed in the two possible
iteration orders — produce different action lists, so the batch order
is not determined by the loaded history and blob sequence alone. -/
theorem deleteOrphans_order_dependent :
    List.Perm
      [("a", exFile "a" "/a.json" "1" ""), ("b", exFile "b" "/b.json" "2" "")]
      [("b", exFile "b" "/b.json" "2" ""), ("a", exFile "a" "/a.json" "1" "")] ∧
    (Gitlab.deleteOrphans (exState
      [("a", exFile "a" "/a.json" "1" ""), ("b", exFile "b" "/b.json" "2" "")])).actions ≠
    (Gitlab.deleteOrphans (exState
      [("b", exFile "b" "/b.json" "2" ""), ("a", exFile "a" "/a.json" "1" "")])).actions := by
  constructor
  · exact List.Perm.swap _ _ _
  · decide

/-- C8 (confirmed): serializing a history map with distinct keys and
deserializing the result restores, at every key, exactly the persisted
projection of the original record: its uid, path and sha256 survive
the round trip for every record present. -/
theorem serialize_roundtrip (h : History) (hnd : (keysOf h).Nodup) :
    ∀ k, histLookup (deserializeHistory (serializeHistory h)) k =
      (histLookup h k).map persistedView := by
  intro k
  show histLookup (reloadHistory h) k = _
  exact histLookup_reload hnd k

/-- Witness for C8 on a two-record history, evaluated at both keys and
at an absent key. -/
theorem serialize_roundtrip_witness :
    histLookup (deserializeHistory (serializeHistory
        [("b", exFile "b" "/b.json" "2" "y"), ("a", exFile "a" "/a.json" "1" "x")])) "a" =
      (histLookup [("b", exFile "b" "/b.json" "2" "y"),
        ("a", exFile "a" "/a.json" "1" "x")] "a").map persistedView ∧
    histLookup (deserializeHistory (serializeHistory
        [("b", exFile "b" "/b.json" "2" "y"), ("a", exFile "a" "/a.json" "1" "x")])) "c" =
      (histLookup [("b", exFile "b" "/b.json" "2" "y"),
        ("a", exFile "a" "/a.json" "1" "x")] "c").map persistedView :=
  ⟨serialize_roundtrip _ (by decide) "a", serialize_roundtrip _ (by decide) "c"⟩

/-- C9 (confirmed): loading the history treats a 404 response as "no
history yet" — construction succeeds with an empty history map and the
write-back action switched to Create — while a fetch failure without a
404 response, a base64 decode failure, or a JSON unmarshal failure each
abort construction of the syncer with an error and no state. -/
theorem parseHistory_error_handling
    (decode : String → Except String String)
    (unmarshal : String → Except String History) :
    (∀ e, NewGitlab (GetFileResult.failure (some ⟨statusNotFound⟩) e) decode unmarshal =
      Except.ok { history := [], historyAction := .create, actions := [] }) ∧
    (∀ resp e, resp.map GetFileResponse.statusCode ≠ some statusNotFound →
      NewGitlab (GetFileResult.failure resp e) decode unmarshal =
        Except.error ("gitlab: error parsing history: " ++ e)) ∧
    (∀ c e, decode c = Except.error e →
      NewGitlab (GetFileResult.success c) decode unmarshal =
        Except.error ("gitlab: error parsing history: " ++ e)) ∧
    (∀ c d e, decode c = Except.ok d → unmarshal d = Except.error e →
      NewGitlab (GetFileResult.success c) decode unmarshal =
        Except.error ("gitlab: error parsing history: " ++ e)) := by
  refine ⟨fun e => rfl, fun resp e h => ?_, fun c e h => ?_, fun c d e h1 h2 => ?_⟩
  · simp [NewGitlab, Gitlab.parseHistory, h]
  · simp [NewGitlab, Gitlab.parseHistory, h]
  · simp [NewGitlab, Gitlab.parseHistory, h1, h2]

/-- Witness for C9: a 404, a plain transport failure and an unmarshal
failure, with concrete decode/unmarshal functions. -/
theorem parseHistory_error_handling_witness :
    NewGitlab (GetFileResult.failure (some ⟨statusNotFound⟩) "boom")
        (fun s => Except.ok s) (fun _ => Except.error "bad json") =
      Except.ok { history := [], historyAction := .create, actions := [] } ∧
    NewGitlab (GetFileResult.failure none "down")
        (fun s => Except.ok s) (fun _ => Except.error "bad json") =
      Except.error ("gitlab: error parsing history: " ++ "down") ∧
    NewGitlab (GetFileResult.success "blob")
        (fun s => Except.ok s) (fun _ => Except.error "bad json") =
      Except.error ("gitlab: error parsing history: " ++ "bad json") :=
  ⟨(parseHistory_error_handling _ _).1 "boom",
   (parseHistory_error_handling _ _).2.1 none "down" (by decide),
   (parseHistory_error_handling _ _).2.2.2 "blob" "blob" "bad json" rfl rfl⟩

/-! ### The second run of a reconciliation is a no-op -/

theorem runAdds_benign_noop (S : List File) :
    ∀ (g : Gitlab), g.actions = [] →
    (keysOf g.history).Nodup →
    (∀ b ∈ S, ∃ f, histLookup g.history b.UID = some f ∧ benign b f) →
    (∀ p ∈ g.history, p.2.processed = true ∨ ∃ b ∈ S, b.UID = p.1) →
    (runAdds g S).actions = [] ∧
    ∀ p ∈ (runAdds g S).history, p.2.processed = true := by
  induction S with
  | nil =>
    intro g ha _ _ hcov
    refine ⟨ha, fun p hp => ?_⟩
    rcases hcov p hp with h1 | ⟨b, hb, _⟩
    · exact h1
    · exact absurd hb (List.not_mem_nil b)
  | cons b S ih =>
    intro g ha hnd hb hcov
    obtain ⟨f, hf, hfb⟩ := hb b (List.mem_cons_self b S)
    have hAdd : g.Add b = { g with history := histSetProcessed g.history b.UID } :=
      Gitlab.Add_of_benign hf hfb.1 hfb.2
    rw [runAdds_cons]
    refine ih (g.Add b) ?_ ?_ ?_ ?_
    · rw [hAdd]
      exact ha
    · rw [hAdd]
      show (keysOf (histSetProcessed g.history b.UID)).Nodup
      rw [keysOf_setProcessed]
      exact hnd
    · intro b' hb'
      obtain ⟨f', hf', hfb'⟩ := hb b' (List.mem_cons_of_mem _ hb')
      rw [hAdd]
      by_cases he : b'.UID = b.UID
      · refine ⟨{ f' with processed := true }, ?_, benign_markProcessed hfb'⟩
        show histLookup (histSetProcessed g.history b.UID) b'.UID = _
        rw [he] at hf' ⊢
        rw [histLookup_setProcessed_self, hf']
        rfl
      · refine ⟨f', ?_, hfb'⟩
        show histLookup (histSetProcessed g.history b.UID) b'.UID = some f'
        rw [histLookup_setProcessed_other _ _ _ he, hf']
    · intro p hp
      rw [hAdd] at hp
      replace hp : p ∈ histSetProcessed g.history b.UID := hp
      by_cases hpk : p.1 = b.UID
      · exact Or.inl (setProcessed_mem_key hnd hp hpk)
      · have hpg : p ∈ g.history := setProcessed_mem_ne hp hpk
        rcases hcov p hpg with h1 | ⟨b'', hb'', he''⟩
        · exact Or.inl h1
        · rcases List.mem_cons.mp hb'' with rfl | hb'''
          · exact absurd he''.symm hpk
          · exact Or.inr ⟨b'', hb''', he''⟩

/-- C5 (confirmed): a run starting from a loaded history (consistent,
unique keys, every record unprocessed) over blobs with pairwise
distinct ids ends in a swept history; reloading that history through
serialize/deserialize and running the very same blob sequence again
adds no action, and `Commit` of the second run returns without
committing anything. -/
theorem runTwice_idempotent (h : History) (S : List File)
    (a1 a2 : FileActionValue)
    (hS : (S.map File.UID).Nodup)
    (hk : (keysOf h).Nodup)
    (hc : consistentHist h)
    (hu : ∀ p ∈ h, p.2.processed = false) :
    (runAdds (Gitlab.mk (reloadHistory (Gitlab.deleteOrphans
        (runAdds (Gitlab.mk h a1 []) S)).history) a2 []) S).actions = [] ∧
    Gitlab.Commit (runAdds (Gitlab.mk (reloadHistory (Gitlab.deleteOrphans
        (runAdds (Gitlab.mk h a1 []) S)).history) a2 []) S) = none := by
  set g0 : Gitlab := Gitlab.mk h a1 [] with hg0
  set g1 : Gitlab := runAdds g0 S with hg1
  have hnd1 : (keysOf g1.history).Nodup := runAdds_keys_nodup S g0 hk
  have hc1 : consistentHist g1.history := runAdds_consistent S g0 hc
  have hsweep : (Gitlab.deleteOrphans g1).history =
      g1.history.filter (fun p => p.2.processed) := by
    show (sweepOrphans [] g1.history [] g1.actions).1 = _
    rw [sweepOrphans_consistent g1.history [] [] g1.actions hc1
      (by simpa using hnd1) (fun k hk' => absurd hk' (List.not_mem_nil k))]
    rfl
  have hlook1 := runAdds_lookup_processed S g0 hS
  have hfilter : ∀ b ∈ S, ∃ f,
      histLookup (Gitlab.deleteOrphans g1).history b.UID = some f ∧
      f.processed = true ∧ benign b f := by
    intro b hb
    obtain ⟨f, hf, hfp, hfb⟩ := hlook1 b hb
    exact ⟨f, by rw [hsweep]; exact histLookup_filter_processed hf hfp, hfp, hfb⟩
  have hndH : (keysOf (Gitlab.deleteOrphans g1).history).Nodup := by
    rw [hsweep]
    exact List.Nodup.sublist (List.Sublist.map _ (List.filter_sublist _)) hnd1
  have hkeysH : ∀ p ∈ (Gitlab.deleteOrphans g1).history, ∃ b ∈ S, b.UID = p.1 := by
    intro p hp
    rw [hsweep] at hp
    have hpm : p ∈ g1.history := List.mem_of_mem_filter hp
    have hpp : p.2.processed = true := by simpa using List.of_mem_filter hp
    rcases runAdds_processed_source S g0 hpm hpp with h1 | ⟨hpg, hpp'⟩
    · exact h1
    · rw [hu p hpg] at hpp'
      exact absurd hpp' Bool.false_ne_true
  have hndR : (keysOf (reloadHistory (Gitlab.deleteOrphans g1).history)).Nodup :=
    ((keysOf_reload_perm _).symm).nodup hndH
  have hlookR : ∀ b ∈ S, ∃ f,
      histLookup (reloadHistory (Gitlab.deleteOrphans g1).history) b.UID =
        some f ∧ benign b f := by
    intro b hb
    obtain ⟨f, hf, _, hfb⟩ := hfilter b hb
    refine ⟨persistedView f, ?_, benign_persistedView hfb⟩
    rw [histLookup_reload hndH, hf]
    rfl
  have hcovR : ∀ p ∈ reloadHistory (Gitlab.deleteOrphans g1).history,
      p.2.processed = true ∨ ∃ b ∈ S, b.UID = p.1 := by
    intro p hp
    right
    have hpk : p.1 ∈ keysOf (reloadHistory (Gitlab.deleteOrphans g1).history) :=
      List.mem_map_of_mem Prod.fst hp
    have hpk' : p.1 ∈ keysOf (Gitlab.deleteOrphans g1).history :=
      ((keysOf_reload_perm _).mem_iff).mp hpk
    obtain ⟨f', hf'⟩ : ∃ x, (p.1, x) ∈ (Gitlab.deleteOrphans g1).history := by
      simpa [keysOf] using hpk'
    obtain ⟨b, hb, hbe⟩ := hkeysH (p.1, f') hf'
    exact ⟨b, hb, hbe⟩
  set g2 : Gitlab := Gitlab.mk (reloadHistory (Gitlab.deleteOrphans g1).history)
    a2 [] with hg2
  obtain ⟨hact2, hproc2⟩ := runAdds_benign_noop S g2 rfl hndR hlookR hcovR
  refine ⟨hact2, ?_⟩
  have hno : (Gitlab.deleteOrphans (runAdds g2 S)).actions = [] := by
    show (sweepOrphans [] (runAdds g2 S).history [] (runAdds g2 S).actions).2 = []
    rw [sweepOrphans_allProcessed _ _ _ hproc2]
    exact hact2
  show (if (Gitlab.deleteOrphans (runAdds g2 S)).actions.isEmpty then none
    else some (Gitlab.deleteOrphans (runAdds g2 S)).updateHistory.actions) = none
  rw [hno]
  rfl

/-- Witness for C5: one history record, one moved blob plus one new
blob; the second run over the reloaded history adds nothing and the
commit is skipped. -/
theorem runTwice_idempotent_witness :
    (runAdds (Gitlab.mk (reloadHistory (Gitlab.deleteOrphans
        (runAdds (Gitlab.mk [("go1", exFile "go1" "/a.json" "111" "")] .update [])
          [exFile "go1" "/b.json" "222" "c1", exFile "new1" "/n.json" "5" "d"])).history)
        .update [])
      [exFile "go1" "/b.json" "222" "c1", exFile "new1" "/n.json" "5" "d"]).actions = [] ∧
    Gitlab.Commit (runAdds (Gitlab.mk (reloadHistory (Gitlab.deleteOrphans
        (runAdds (Gitlab.mk [("go1", exFile "go1" "/a.json" "111" "")] .update [])
          [exFile "go1" "/b.json" "222" "c1", exFile "new1" "/n.json" "5" "d"])).history)
        .update [])
      [exFile "go1" "/b.json" "222" "c1", exFile "new1" "/n.json" "5" "d"]) = none :=
  runTwice_idempotent [("go1", exFile "go1" "/a.json" "111" "")]
    [exFile "go1" "/b.json" "222" "c1", exFile "new1" "/n.json" "5" "d"]
    .update .update (by decide) (by decide)
    (by unfold consistentHist; decide) (by decide)
